import Mathlib

/-!
Shallow embedding of the I-TYPE classification engine (`src/idix_engine.py`)
and proofs about its specification.

Conventions of the embedding:
- Python dicts are modelled as association lists (`List (key × value)`),
  preserving insertion order as Python dicts do; keys are unique in every
  dict the engine builds or receives.
- Likert values are integers (`ℤ`); per-dimension scores produced by the
  normalizer are exact rationals (`ℚ`); the energy / distance engine works
  over the reals (`ℝ`) because the curvature term `abs(diff) ** 1.5` and
  `math.sqrt` are irrational-valued.  `float("inf")` is modelled as `⊤`
  in `WithTop ℝ` (no NaN ever arises on these code paths).
- `random.gauss(0, noise * 100.0)` is modelled by an ambient stream
  `g : ℕ → Dim → ℝ` of standard draws, scaled by `gauss_sigma noise`:
  the claims proved here hold for every stream, hence for every sequence
  of random draws.
-/

namespace ITYPE

/-- Dimension catalog: the fixed ordered set of the six trait dimensions,
from `dims = ["thinking", "execution", "risk", "motivation", "team",
"commercial"]` in `normalize_scores`. -/
inductive Dim
  | thinking
  | execution
  | risk
  | motivation
  | team
  | commercial
deriving DecidableEq, Repr

/-- The list `dims` of `normalize_scores` (src/idix_engine.py line 37). -/
def dims : List Dim :=
  [Dim.thinking, Dim.execution, Dim.risk, Dim.motivation, Dim.team, Dim.commercial]

/-- One raw questionnaire answer: `{"dimension": ..., "value": ..., "reverse": ...}`.
`raw_answers.values()` is modelled as a `List RawResponse`. -/
structure RawResponse where
  dimension : Dim
  value : ℤ
  reverse : Bool
deriving DecidableEq, Repr

/-- Reverse coding applied to one entry (src/idix_engine.py lines 46-48):
`if entry.get("reverse", False): val = 6 - val`. -/
def effVal (e : RawResponse) : ℤ :=
  if e.reverse then 6 - e.value else e.value

/-- Accumulated `scores[d]` of the loop at lines 42-51: the sum of the
(reverse-coded) values of the responses tagged with dimension `d`. -/
def dimSum (raw : List RawResponse) (d : Dim) : ℤ :=
  ((raw.filter (fun e => e.dimension == d)).map effVal).sum

/-- Accumulated `counts[d]` of the loop at lines 42-51. -/
def dimCount (raw : List RawResponse) (d : Dim) : ℕ :=
  (raw.filter (fun e => e.dimension == d)).length

/-- Per-dimension final score (src/idix_engine.py lines 54-61):
`max_score = counts[d] * 5.0`; neutral `50.0` if `max_score <= 0`, else
`(scores[d] / max_score) * 100.0`.  Since `counts[d] : ℕ`,
`max_score <= 0` is exactly `counts[d] = 0`. -/
def scoreOf (raw : List RawResponse) (d : Dim) : ℚ :=
  if dimCount raw d = 0 then 50
  else ((dimSum raw d : ℚ) / (dimCount raw d * 5)) * 100

/-- The Score Normalizer `normalize_scores` (src/idix_engine.py lines 27-63):
returns the dict `{d: final_scores[d] for d in dims}` in the fixed order. -/
def normalize_scores (raw : List RawResponse) : List (Dim × ℚ) :=
  dims.map (fun d => (d, scoreOf raw d))

/-- Replacing a response by its reverse-decoded form: the transformation
`value' = 6 - value, reverse := false` that the claim C8 describes. -/
def withoutReverse (e : RawResponse) : RawResponse :=
  ⟨e.dimension, effVal e, false⟩

/-- Score vectors and archetype signatures: Python dicts `Dim -> float`,
kept in insertion order, modelled over the reals. -/
abbrev ScoreMap := List (Dim × ℝ)

/-- Optional per-dimension weight dict (`dim_weights`; `None` becomes the
empty dict at src/idix_engine.py lines 102-103). -/
abbrev Weights := List (Dim × ℝ)

/-- Dict read `m[d]` for a key `d` known to be present. -/
noncomputable def getSc (m : ScoreMap) (d : Dim) : ℝ :=
  (m.lookup d).getD 0

/-- The set `common_dims = set(scores.keys()) & set(signature.keys())`
(src/idix_engine.py line 108), as the score keys that also occur in the
signature.  The engine only ever sums over it, and the sums are
order-independent, so the list order stands in for Python's set order. -/
noncomputable def commonDims (scores signature : ScoreMap) : List Dim :=
  (scores.map Prod.fst).filter (fun d => (signature.lookup d).isSome)

/-- Python `abs(diff) ** 1.5` (src/idix_engine.py line 124). -/
noncomputable def absPow15 (x : ℝ) : ℝ :=
  |x| ^ (1.5 : ℝ)

/-- The Distance/Energy Model `_compute_archetype_energy`
(src/idix_engine.py lines 70-138):
`E = Σ w_i Δ_i² + λ Σ w_i |Δ_i|^1.5 + ρ R` with `Δ_i = (scores[i]-signature[i])/100`,
`R = mean(signature over common dims) / 100`; `float("inf")` (here `⊤`)
when the two dicts share no dimension. -/
noncomputable def _compute_archetype_energy (scores signature : ScoreMap)
    (dim_weights : Weights) (lambda_curvature rarity_weight : ℝ) : WithTop ℝ :=
  if (commonDims scores signature).isEmpty then ⊤
  else
    ((((commonDims scores signature).map (fun d =>
          ((dim_weights.lookup d).getD 1) *
            ((getSc scores d - getSc signature d) / 100) ^ 2)).sum
      + lambda_curvature *
          ((commonDims scores signature).map (fun d =>
            ((dim_weights.lookup d).getD 1) *
              absPow15 ((getSc scores d - getSc signature d) / 100))).sum
      + rarity_weight *
          (if ((commonDims scores signature).map (getSc signature)).isEmpty
            then 0.5
            else ((commonDims scores signature).map (getSc signature)).sum /
              ((((commonDims scores signature).map (getSc signature)).length : ℝ)
                * 100))
      : ℝ) : WithTop ℝ)

/-- Archetype catalog entry value.  The engine reads only
`data.get("signature", {})`; the descriptive metadata (description,
strengths, risks, pathways, business models, funding strategy) is opaque
payload it never inspects, so it is not modelled. -/
structure ArchetypeData where
  signature : ScoreMap

/-- Archetype catalog: dict archetype name -> data. -/
abbrev Catalog := List (String × ArchetypeData)

/-- One iteration of the loop of `determine_archetype`
(src/idix_engine.py lines 154-170): skip entries with an empty signature,
evaluate the energy at λ = 0.6, ρ = 0.25, and keep the entry exactly when
its energy is strictly below the best seen so far (initially `inf`). -/
noncomputable def matchStep (scores : ScoreMap) (dim_weights : Weights)
    (acc : Option (String × ArchetypeData) × WithTop ℝ)
    (e : String × ArchetypeData) :
    Option (String × ArchetypeData) × WithTop ℝ :=
  if e.2.signature.isEmpty then acc
  else if _compute_archetype_energy scores e.2.signature dim_weights 0.6 0.25 < acc.2
    then (some e, _compute_archetype_energy scores e.2.signature dim_weights 0.6 0.25)
    else acc

/-- The Archetype Matcher `determine_archetype` (src/idix_engine.py
lines 141-172): the `(best_name, best_data)` pair, `none` standing for the
Python sentinel `(None, None)`. -/
noncomputable def determine_archetype (scores : ScoreMap) (archetypes : Catalog)
    (dim_weights : Weights) : Option (String × ArchetypeData) :=
  (archetypes.foldl (matchStep scores dim_weights) (none, ⊤)).1

/-- Invariant of the matcher's loop after processing a first segment of the
catalog: a `none` state still carries the initial infinite energy; a chosen
entry comes from the processed segment, has a non-empty signature, and the
carried energy is its (finite) energy; and the carried energy is at most the
energy of every valid processed entry. -/
def MatchInv (scores : ScoreMap) (dw : Weights) (processed : Catalog)
    (acc : Option (String × ArchetypeData) × WithTop ℝ) : Prop :=
  (acc.1 = none → acc.2 = ⊤) ∧
  (∀ p, acc.1 = some p → p ∈ processed ∧ p.2.signature.isEmpty = false ∧
    acc.2 = _compute_archetype_energy scores p.2.signature dw 0.6 0.25 ∧
    acc.2 ≠ ⊤) ∧
  (∀ e ∈ processed, e.2.signature.isEmpty = false →
    acc.2 ≤ _compute_archetype_energy scores e.2.signature dw 0.6 0.25)

/-- Classic Euclidean distance over the shared dimensions, in raw score
units (src/idix_engine.py lines 259-261):
`math.sqrt(sum((scores[d] - sig[d]) ** 2 for d in common_dims))`. -/
noncomputable def euclidDist (scores sig : ScoreMap) : ℝ :=
  Real.sqrt (((commonDims scores sig).map
    (fun d => (getSc scores d - getSc sig d) ^ 2)).sum)

/-- The Diagnostics Reporter `compute_archetype_distances`
(src/idix_engine.py lines 235-277): the pair of the `euclidean` and
`energy` dicts, built over the valid (non-empty-signature) catalog entries
in order; entries sharing no dimension with the scores get `inf` in both. -/
noncomputable def compute_archetype_distances (scores : ScoreMap)
    (archetypes : Catalog) (dim_weights : Weights) :
    List (String × WithTop ℝ) × List (String × WithTop ℝ) :=
  archetypes.foldr (fun e acc =>
    if e.2.signature.isEmpty then acc
    else if (commonDims scores e.2.signature).isEmpty then
      ((e.1, (⊤ : WithTop ℝ)) :: acc.1, (e.1, (⊤ : WithTop ℝ)) :: acc.2)
    else
      ((e.1, ((euclidDist scores e.2.signature : ℝ) : WithTop ℝ)) :: acc.1,
        (e.1, _compute_archetype_energy scores e.2.signature dim_weights 0.6 0.25)
          :: acc.2))
    ([], [])

/-- Default trial count of `monte_carlo_probabilities`
(src/idix_engine.py line 182: `runs=5000`). -/
def runs_default : ℕ := 5000

/-- Default noise fraction of `monte_carlo_probabilities`
(src/idix_engine.py line 183: `noise=0.10`). -/
noncomputable def noise_default : ℝ := 0.10

/-- Standard deviation handed to `random.gauss(0, noise * 100.0)`
(src/idix_engine.py line 208). -/
noncomputable def gauss_sigma (noise : ℝ) : ℝ := noise * 100

/-- Clamping of a perturbed value (src/idix_engine.py line 209):
`max(0.0, min(100.0, val + delta))`. -/
noncomputable def clamp01 (x : ℝ) : ℝ := max 0 (min 100 x)

/-- One trial's perturbed score dict (src/idix_engine.py lines 205-210);
`gt d` is the trial's standard Gaussian draw for dimension `d`, so
`gauss_sigma noise * gt d` is distributed as `random.gauss(0, noise*100)`. -/
noncomputable def perturb (gt : Dim → ℝ) (noise : ℝ) (base : ScoreMap) : ScoreMap :=
  base.map (fun p => (p.1, clamp01 (p.2 + gauss_sigma noise * gt p.1)))

/-- The guarded tally `if name in counts: counts[name] += 1`
(src/idix_engine.py lines 213-214). -/
def bump (counts : List (String × ℕ)) (name : String) : List (String × ℕ) :=
  counts.map (fun p => if p.1 = name then (p.1, p.2 + 1) else p)

/-- The `counts` dict after the trial loop of src/idix_engine.py
lines 202-214, with `g t` the standard Gaussian draws of trial `t`. -/
noncomputable def mc_counts (g : ℕ → Dim → ℝ) (base_scores : ScoreMap)
    (archetypes : Catalog) (runs : ℕ) (noise : ℝ) (dw : Weights) :
    List (String × ℕ) :=
  (List.range runs).foldl (fun counts t =>
    match determine_archetype (perturb (g t) noise base_scores) archetypes dw with
    | some p => bump counts p.1
    | none => counts)
    (archetypes.map (fun e => (e.1, 0)))

/-- The divisor `total = sum(counts.values()) or 1`
(src/idix_engine.py line 216). -/
noncomputable def mc_total (g : ℕ → Dim → ℝ) (base_scores : ScoreMap)
    (archetypes : Catalog) (runs : ℕ) (noise : ℝ) (dw : Weights) : ℕ :=
  if ((mc_counts g base_scores archetypes runs noise dw).map Prod.snd).sum = 0
    then 1
    else ((mc_counts g base_scores archetypes runs noise dw).map Prod.snd).sum

/-- The `probs` dict (src/idix_engine.py line 218):
`{a: (c / total) * 100.0 for a, c in counts.items()}`. -/
noncomputable def mc_probs (g : ℕ → Dim → ℝ) (base_scores : ScoreMap)
    (archetypes : Catalog) (runs : ℕ) (noise : ℝ) (dw : Weights) :
    List (String × ℚ) :=
  (mc_counts g base_scores archetypes runs noise dw).map
    (fun p => (p.1, ((p.2 : ℚ) / (mc_total g base_scores archetypes runs noise dw))
      * 100))

/-- Python `max(probs, key=probs.get)` (src/idix_engine.py line 221): the
first entry attaining the maximal value; `none` for an empty dict, where
Python raises `ValueError`. -/
def argmaxFirst : List (String × ℚ) → Option (String × ℚ)
  | [] => none
  | x :: xs => some (xs.foldl (fun b p => if p.2 > b.2 then p else b) x)

/-- `sorted(probs.items(), key=lambda x: x[1], reverse=True)`
(src/idix_engine.py line 225): a stable descending sort by value. -/
def sortDesc (probs : List (String × ℚ)) : List (String × ℚ) :=
  probs.mergeSort (fun a b => decide (b.2 ≤ a.2))

/-- The Stability Simulator `monte_carlo_probabilities`
(src/idix_engine.py lines 179-228), returning
`(probs, stability, shadow)`.  The value is `none` exactly where the Python
function raises `ValueError` — `max()` over an empty `probs` dict, which
happens iff the catalog is empty; defaults are `runs_default` and
`noise_default`. -/
noncomputable def monte_carlo_probabilities (g : ℕ → Dim → ℝ)
    (base_scores : ScoreMap) (archetypes : Catalog) (runs : ℕ) (noise : ℝ)
    (dw : Weights) : Option (List (String × ℚ) × ℚ × (String × ℚ)) :=
  (argmaxFirst (mc_probs g base_scores archetypes runs noise dw)).map
    (fun primary =>
      (mc_probs g base_scores archetypes runs noise dw, primary.2,
        if 1 < (sortDesc (mc_probs g base_scores archetypes runs noise dw)).length
          then (sortDesc (mc_probs g base_scores archetypes runs noise dw)).getD 1
            ("None", 0)
          else ("None", 0)))

/-- `monte_carlo_probabilities` as called with its default arguments
(src/idix_engine.py lines 182-184: `runs=5000`, `noise=0.10`,
`dim_weights=None`). -/
noncomputable def monte_carlo_probabilities_defaults (g : ℕ → Dim → ℝ)
    (base_scores : ScoreMap) (archetypes : Catalog) :
    Option (List (String × ℚ) × ℚ × (String × ℚ)) :=
  monte_carlo_probabilities g base_scores archetypes runs_default noise_default []

theorem effVal_withoutReverse (e : RawResponse) : effVal (withoutReverse e) = effVal e := by
  simp [withoutReverse, effVal]

theorem dimSum_map_withoutReverse (raw : List RawResponse) (d : Dim) :
    dimSum (raw.map withoutReverse) d = dimSum raw d := by
  induction raw with
  | nil => rfl
  | cons e tl ih =>
    simp only [dimSum, List.map_cons, List.filter_cons] at *
    by_cases h : e.dimension = d
    · simp [withoutReverse, h, effVal_withoutReverse, ih, effVal]
    · simp [withoutReverse, h, ih]

theorem dimCount_map_withoutReverse (raw : List RawResponse) (d : Dim) :
    dimCount (raw.map withoutReverse) d = dimCount raw d := by
  induction raw with
  | nil => rfl
  | cons e tl ih =>
    simp only [dimCount, List.map_cons, List.filter_cons] at *
    by_cases h : e.dimension = d
    · simp [withoutReverse, h, ih]
    · simp [withoutReverse, h, ih]

theorem dimSum_append (a b : List RawResponse) (d : Dim) :
    dimSum (a ++ b) d = dimSum a d + dimSum b d := by
  simp [dimSum, List.filter_append]

theorem dimCount_append (a b : List RawResponse) (d : Dim) :
    dimCount (a ++ b) d = dimCount a d + dimCount b d := by
  simp [dimCount, List.filter_append]

/-- C8: Reverse coding is applied as `value' = 6 - value` before any
aggregation.  First conjunct: normalizing any collection of raw responses
gives the same ScoreVector as normalizing the collection in which every
response has been replaced by its reverse-decoded form (`value' = 6 - value`
when `reverse = true`, unchanged otherwise, with the reverse flag cleared).
Second conjunct: in any collection, one response `value = v, reverse = true`
is interchangeable with `value = 6 - v, reverse = false` without changing
the resulting ScoreVector. -/
theorem reverse_coding_before_aggregation :
    (∀ raw : List RawResponse,
      normalize_scores (raw.map withoutReverse) = normalize_scores raw) ∧
    (∀ (pre post : List RawResponse) (d : Dim) (v : ℤ),
      normalize_scores (pre ++ ⟨d, v, true⟩ :: post) =
        normalize_scores (pre ++ ⟨d, 6 - v, false⟩ :: post)) := by
  constructor
  · intro raw
    unfold normalize_scores
    refine List.map_congr_left (fun d _ => ?_)
    simp [scoreOf, dimSum_map_withoutReverse, dimCount_map_withoutReverse]
  · intro pre post d v
    unfold normalize_scores
    refine List.map_congr_left (fun d' _ => ?_)
    have hs : dimSum (pre ++ ⟨d, v, true⟩ :: post) d' =
        dimSum (pre ++ ⟨d, 6 - v, false⟩ :: post) d' := by
      have h1 : dimSum ((⟨d, v, true⟩ : RawResponse) :: post) d' =
          dimSum ((⟨d, 6 - v, false⟩ : RawResponse) :: post) d' := by
        simp only [dimSum, List.filter_cons]
        by_cases h : d = d' <;> simp [h, effVal]
      simp [dimSum_append, h1]
    have hc : dimCount (pre ++ ⟨d, v, true⟩ :: post) d' =
        dimCount (pre ++ ⟨d, 6 - v, false⟩ :: post) d' := by
      have h1 : dimCount ((⟨d, v, true⟩ : RawResponse) :: post) d' =
          dimCount ((⟨d, 6 - v, false⟩ : RawResponse) :: post) d' := by
        simp only [dimCount, List.filter_cons]
        by_cases h : d = d' <;> simp [h]
      simp [dimCount_append, h1]
    simp [scoreOf, hs, hc]

/-- C1 counterexample: a single response of value 3 (the scale midpoint,
no reverse coding) on dimension `thinking` normalizes to 60, not 50, and a
single response of value 1 normalizes to 20, not 0: the code divides the
per-dimension sum by `count * 5` and multiplies by 100, it does not apply
the affine map `(aggregate - 1) / 4 * 100`. -/
theorem normalizer_not_affine_counterexample :
    scoreOf [⟨Dim.thinking, 3, false⟩] Dim.thinking = 60 ∧
    (Dim.thinking, (60 : ℚ)) ∈ normalize_scores [⟨Dim.thinking, 3, false⟩] ∧
    scoreOf [⟨Dim.thinking, 1, false⟩] Dim.thinking = 20 ∧
    (60 : ℚ) ≠ 50 ∧ (20 : ℚ) ≠ 0 := by
  have h3 : scoreOf [⟨Dim.thinking, 3, false⟩] Dim.thinking = 60 := by
    norm_num [scoreOf, dimSum, dimCount, effVal]
  have h1 : scoreOf [⟨Dim.thinking, 1, false⟩] Dim.thinking = 20 := by
    norm_num [scoreOf, dimSum, dimCount, effVal]
  exact ⟨h3, h3 ▸ List.mem_map_of_mem _ (by decide : Dim.thinking ∈ dims),
    h1, by norm_num, by norm_num⟩

theorem effVal_bounds (e : RawResponse) (h1 : 1 ≤ e.value) (h5 : e.value ≤ 5) :
    1 ≤ effVal e ∧ effVal e ≤ 5 := by
  unfold effVal
  split <;> omega

theorem sum_bounds_of_forall (l : List ℤ) (a b : ℤ)
    (h : ∀ x ∈ l, a ≤ x ∧ x ≤ b) :
    a * l.length ≤ l.sum ∧ l.sum ≤ b * l.length := by
  induction l with
  | nil => simp
  | cons x tl ih =>
    have hx := h x (List.mem_cons_self x tl)
    have ih' := ih (fun y hy => h y (List.mem_cons_of_mem x hy))
    simp only [List.sum_cons, List.length_cons]
    push_cast
    constructor <;> nlinarith [ih'.1, ih'.2, hx.1, hx.2]

theorem sum_of_forall_eq (l : List ℤ) (v : ℤ) (h : ∀ x ∈ l, x = v) :
    l.sum = v * l.length := by
  induction l with
  | nil => simp
  | cons x tl ih =>
    have hx := h x (List.mem_cons_self x tl)
    have ih' := ih (fun y hy => h y (List.mem_cons_of_mem x hy))
    simp only [List.sum_cons, List.length_cons, hx, ih']
    push_cast
    ring

theorem dimSum_bounds (raw : List RawResponse) (d : Dim)
    (hv : ∀ e ∈ raw, 1 ≤ e.value ∧ e.value ≤ 5) :
    (dimCount raw d : ℤ) ≤ dimSum raw d ∧ dimSum raw d ≤ 5 * dimCount raw d := by
  have h : ∀ x ∈ (raw.filter (fun e => e.dimension == d)).map effVal,
      1 ≤ x ∧ x ≤ 5 := by
    intro x hx
    obtain ⟨e, he, rfl⟩ := List.mem_map.mp hx
    have := hv e (List.mem_of_mem_filter he)
    exact effVal_bounds e this.1 this.2
  have := sum_bounds_of_forall _ 1 5 h
  unfold dimSum dimCount
  simpa using this

/-- C1 amended: the Score Normalizer rescales each dimension's aggregate
with the map `score = aggregate / 5 * 100` (the per-dimension sum divided by
`count * 5`, times 100), not `(aggregate - 1) / 4 * 100`: a dimension all of
whose (reverse-coded) responses have value `v` normalizes to `v * 20` — all
1s yield 20, all 3s yield 60, all 5s yield 100. -/
theorem normalizer_rescales_by_max (raw : List RawResponse) (d : Dim) (v : ℤ)
    (hd : d ∈ dims) (hc : 0 < dimCount raw d)
    (hv : ∀ e ∈ raw, e.dimension = d → effVal e = v) :
    (d, (v : ℚ) * 20) ∈ normalize_scores raw := by
  have hsum : dimSum raw d = v * dimCount raw d := by
    have h : ∀ x ∈ (raw.filter (fun e => e.dimension == d)).map effVal, x = v := by
      intro x hx
      obtain ⟨e, he, rfl⟩ := List.mem_map.mp hx
      exact hv e (List.mem_of_mem_filter he)
        (by simpa using List.of_mem_filter he)
    have := sum_of_forall_eq _ v h
    unfold dimSum dimCount
    simpa using this
  have hc' : dimCount raw d ≠ 0 := by omega
  have hcq : ((dimCount raw d : ℚ)) ≠ 0 := Nat.cast_ne_zero.mpr hc'
  have hscore : scoreOf raw d = (v : ℚ) * 20 := by
    unfold scoreOf
    rw [if_neg hc', hsum]
    push_cast
    field_simp
    ring
  exact hscore ▸ List.mem_map_of_mem _ hd

/-- C1 amended witness: a single value-3 response on `thinking` yields
`3 * 20 = 60`. -/
theorem normalizer_rescales_by_max_witness :
    (Dim.thinking, ((3 : ℤ) : ℚ) * 20) ∈
      normalize_scores [⟨Dim.thinking, 3, false⟩] :=
  normalizer_rescales_by_max [⟨Dim.thinking, 3, false⟩] Dim.thinking 3
    (by decide) (by decide) (by decide)

/-- C10: for every dimension with at least one response whose Likert values
are all in 1..5, the normalized score lies in [20, 100]: the minimum
achievable score for an answered dimension is 20, not 0, because each
(possibly reverse-coded) value is at least 1 and the code divides the
per-dimension sum by `count * 5`. -/
theorem normalizer_answered_range (raw : List RawResponse) (d : Dim)
    (hd : d ∈ dims) (hv : ∀ e ∈ raw, 1 ≤ e.value ∧ e.value ≤ 5)
    (hc : 0 < dimCount raw d) :
    (d, scoreOf raw d) ∈ normalize_scores raw ∧
    20 ≤ scoreOf raw d ∧ scoreOf raw d ≤ 100 := by
  have hb := dimSum_bounds raw d hv
  have hc' : dimCount raw d ≠ 0 := by omega
  have hcq : (0 : ℚ) < (dimCount raw d : ℚ) := by exact_mod_cast hc
  have hlo : (dimCount raw d : ℚ) ≤ (dimSum raw d : ℚ) := by exact_mod_cast hb.1
  have hhi : (dimSum raw d : ℚ) ≤ 5 * (dimCount raw d : ℚ) := by exact_mod_cast hb.2
  refine ⟨List.mem_map_of_mem _ hd, ?_, ?_⟩
  · unfold scoreOf
    rw [if_neg hc', div_mul_eq_mul_div, le_div_iff₀ (by positivity)]
    nlinarith
  · unfold scoreOf
    rw [if_neg hc', div_mul_eq_mul_div, div_le_iff₀ (by positivity)]
    nlinarith

/-- C10 witness: one all-disagree (value 1) response on `thinking` gives a
score of exactly 20, inside [20, 100]. -/
theorem normalizer_answered_range_witness :
    (Dim.thinking, scoreOf [⟨Dim.thinking, 1, false⟩] Dim.thinking) ∈
      normalize_scores [⟨Dim.thinking, 1, false⟩] ∧
    20 ≤ scoreOf [⟨Dim.thinking, 1, false⟩] Dim.thinking ∧
    scoreOf [⟨Dim.thinking, 1, false⟩] Dim.thinking ≤ 100 :=
  normalizer_answered_range [⟨Dim.thinking, 1, false⟩] Dim.thinking
    (by decide) (by decide) (by decide)

theorem absPow15_zero : absPow15 0 = 0 := by
  rw [absPow15, abs_zero]
  exact Real.zero_rpow (by norm_num)

theorem matchStep_preserves (scores : ScoreMap) (dw : Weights)
    (processed : Catalog) (acc : Option (String × ArchetypeData) × WithTop ℝ)
    (e : String × ArchetypeData) (h : MatchInv scores dw processed acc) :
    MatchInv scores dw (processed ++ [e]) (matchStep scores dw acc e) := by
  obtain ⟨h1, h2, h3⟩ := h
  unfold matchStep
  by_cases hsig : e.2.signature.isEmpty
  · rw [if_pos hsig]
    refine ⟨h1, ?_, ?_⟩
    · intro p hp
      obtain ⟨hm, hr⟩ := h2 p hp
      exact ⟨List.mem_append_left _ hm, hr⟩
    · intro e' he' hne
      rcases List.mem_append.mp he' with h' | h'
      · exact h3 e' h' hne
      · rw [List.mem_singleton.mp h'] at hne
        rw [hsig] at hne
        cases hne
  · rw [if_neg hsig]
    by_cases hlt :
        _compute_archetype_energy scores e.2.signature dw 0.6 0.25 < acc.2
    · rw [if_pos hlt]
      refine ⟨by simp, ?_, ?_⟩
      · intro p hp
        obtain rfl : e = p := by simpa using hp
        refine ⟨List.mem_append_right _ (List.mem_singleton_self e),
          Bool.eq_false_iff.mpr hsig, rfl, ?_⟩
        exact ne_top_of_lt (lt_of_lt_of_le hlt le_top)
      · intro e' he' hne
        rcases List.mem_append.mp he' with h' | h'
        · exact le_trans (le_of_lt hlt) (h3 e' h' hne)
        · rw [List.mem_singleton.mp h']
    · rw [if_neg hlt]
      refine ⟨h1, ?_, ?_⟩
      · intro p hp
        obtain ⟨hm, hr⟩ := h2 p hp
        exact ⟨List.mem_append_left _ hm, hr⟩
      · intro e' he' hne
        rcases List.mem_append.mp he' with h' | h'
        · exact h3 e' h' hne
        · rw [List.mem_singleton.mp h']
          exact le_of_not_lt hlt

theorem foldl_matchStep_inv (scores : ScoreMap) (dw : Weights) :
    ∀ (rest processed : Catalog)
      (acc : Option (String × ArchetypeData) × WithTop ℝ),
      MatchInv scores dw processed acc →
      MatchInv scores dw (processed ++ rest)
        (rest.foldl (matchStep scores dw) acc) := by
  intro rest
  induction rest with
  | nil => intro processed acc h; simpa using h
  | cons e rest' ih =>
    intro processed acc h
    have step := matchStep_preserves scores dw processed acc e h
    have := ih (processed ++ [e]) (matchStep scores dw acc e) step
    simpa [List.append_assoc] using this

theorem determine_archetype_inv (scores : ScoreMap) (cat : Catalog)
    (dw : Weights) :
    MatchInv scores dw cat (cat.foldl (matchStep scores dw) (none, ⊤)) := by
  have init : MatchInv scores dw [] ((none, ⊤) :
      Option (String × ArchetypeData) × WithTop ℝ) := by
    refine ⟨fun _ => rfl, ?_, ?_⟩
    · intro p hp; cases hp
    · intro e he; cases he
  simpa using foldl_matchStep_inv scores dw cat [] (none, ⊤) init

/-- C3 counterexample: for the identical score vector and signature
`{thinking: 100}` (sharing one dimension, equal on it), the energy model
returns `ρ * mean(signature)/100 = 0.25 * 1 = 0.25`, not 0: the rarity bias
`ρ * R` is added even when all differences vanish. -/
theorem energy_identical_not_zero :
    _compute_archetype_energy [(Dim.thinking, (100 : ℝ))]
        [(Dim.thinking, (100 : ℝ))] [] 0.6 0.25 = ((0.25 : ℝ) : WithTop ℝ) ∧
    ((0.25 : ℝ) : WithTop ℝ) ≠ ((0 : ℝ) : WithTop ℝ) := by
  constructor
  · rw [_compute_archetype_energy]
    norm_num [commonDims, getSc, absPow15, List.lookup, Real.zero_rpow]
  · intro h
    rw [WithTop.coe_eq_coe] at h
    norm_num at h

/-- C3 amended: for every ScoreVector and ArchetypeSignature that are equal
on all shared dimensions and share at least one dimension, the mismatch
returned by the Distance/Energy Model is exactly the rarity bias
`rarity_weight * mean(signature over shared dimensions) / 100` — both the
quadratic and the curvature terms vanish, but the result is 0 only when the
shared signature values sum to 0, not in general. -/
theorem energy_identical_vectors (scores sig : ScoreMap) (dw : Weights)
    (lc rw : ℝ) (hne : (commonDims scores sig).isEmpty = false)
    (heq : ∀ d ∈ commonDims scores sig, getSc scores d = getSc sig d) :
    _compute_archetype_energy scores sig dw lc rw =
      ((rw * (((commonDims scores sig).map (getSc sig)).sum /
        (((commonDims scores sig).length : ℝ) * 100)) : ℝ) : WithTop ℝ) := by
  rw [_compute_archetype_energy, if_neg (by rw [hne]; exact Bool.false_ne_true)]
  have hquad :
      ((commonDims scores sig).map (fun d =>
        ((dw.lookup d).getD 1) * ((getSc scores d - getSc sig d) / 100) ^ 2)).sum
        = 0 := by
    refine List.sum_eq_zero (fun x hx => ?_)
    obtain ⟨d, hd, rfl⟩ := List.mem_map.mp hx
    rw [heq d hd]
    ring
  have hcurv :
      ((commonDims scores sig).map (fun d =>
        ((dw.lookup d).getD 1) * absPow15 ((getSc scores d - getSc sig d) / 100))).sum
        = 0 := by
    refine List.sum_eq_zero (fun x hx => ?_)
    obtain ⟨d, hd, rfl⟩ := List.mem_map.mp hx
    rw [heq d hd]
    simp [absPow15_zero]
  have hmapne : (((commonDims scores sig).map (getSc sig)).isEmpty) = false := by
    simpa using hne
  rw [hquad, hcurv, hmapne]
  simp only [Bool.false_eq_true, if_false, List.length_map]
  rw [WithTop.coe_eq_coe]
  ring

/-- C3 amended witness: instantiated at the identical pair
`{thinking: 100}` with the engine's constants λ = 0.6, ρ = 0.25. -/
theorem energy_identical_vectors_witness :
    _compute_archetype_energy [(Dim.thinking, (100 : ℝ))]
        [(Dim.thinking, (100 : ℝ))] [] 0.6 0.25 =
      ((0.25 * (((commonDims [(Dim.thinking, (100 : ℝ))]
            [(Dim.thinking, (100 : ℝ))]).map
          (getSc [(Dim.thinking, (100 : ℝ))])).sum /
        (((commonDims [(Dim.thinking, (100 : ℝ))]
            [(Dim.thinking, (100 : ℝ))]).length : ℝ) * 100)) : ℝ) : WithTop ℝ) :=
  energy_identical_vectors [(Dim.thinking, (100 : ℝ))]
    [(Dim.thinking, (100 : ℝ))] [] 0.6 0.25 (by decide) (fun _ _ => rfl)

/-- C9: first conjunct — a ScoreVector and signature sharing zero
dimensions get mismatch `float("inf")` (`⊤`).  Second conjunct — whenever
the Archetype Matcher returns an archetype, that archetype is a catalog
entry with a non-empty signature sharing at least one dimension with the
scores (so neither an empty-signature archetype nor a disjoint one is ever
selected).  Third conjunct — with zero valid entries the matcher returns
the no-result sentinel (`none`, Python `(None, None)`) instead of failing. -/
theorem matcher_excludes_invalid :
    (∀ (scores sig : ScoreMap) (dw : Weights) (lc rw : ℝ),
      (commonDims scores sig).isEmpty = true →
      _compute_archetype_energy scores sig dw lc rw = ⊤) ∧
    (∀ (scores : ScoreMap) (cat : Catalog) (dw : Weights)
      (p : String × ArchetypeData),
      determine_archetype scores cat dw = some p →
      p ∈ cat ∧ p.2.signature.isEmpty = false ∧
      (commonDims scores p.2.signature).isEmpty = false) ∧
    (∀ (scores : ScoreMap) (cat : Catalog) (dw : Weights),
      (∀ e ∈ cat, e.2.signature.isEmpty = true) →
      determine_archetype scores cat dw = none) := by
  have htop : ∀ (scores sig : ScoreMap) (dw : Weights) (lc rw : ℝ),
      (commonDims scores sig).isEmpty = true →
      _compute_archetype_energy scores sig dw lc rw = ⊤ := by
    intro scores sig dw lc rw h
    rw [_compute_archetype_energy, if_pos h]
  refine ⟨htop, ?_, ?_⟩
  · intro scores cat dw p hp
    have inv := determine_archetype_inv scores cat dw
    obtain ⟨hmem, hsig, hen, hne⟩ := inv.2.1 p hp
    refine ⟨hmem, hsig, ?_⟩
    by_contra h
    have h' : (commonDims scores p.2.signature).isEmpty = true := by
      cases hb : (commonDims scores p.2.signature).isEmpty
      · exact absurd hb h
      · rfl
    exact hne (hen.trans (htop scores p.2.signature dw 0.6 0.25 h'))
  · intro scores cat dw hall
    have inv := determine_archetype_inv scores cat dw
    unfold determine_archetype
    cases hres : (cat.foldl (matchStep scores dw) (none, ⊤)).1 with
    | none => rfl
    | some p =>
      obtain ⟨hmem, hsig, _⟩ := inv.2.1 p hres
      rw [hall p hmem] at hsig
      cases hsig

theorem energy_top_of_no_common (scores sig : ScoreMap) (dw : Weights)
    (lc rw : ℝ) (h : (commonDims scores sig).isEmpty = true) :
    _compute_archetype_energy scores sig dw lc rw = ⊤ := by
  rw [_compute_archetype_energy, if_pos h]

theorem mem_diag_energy (scores : ScoreMap) (dw : Weights) :
    ∀ (cat : Catalog) (e : String × ArchetypeData), e ∈ cat →
      e.2.signature.isEmpty = false →
      (e.1, _compute_archetype_energy scores e.2.signature dw 0.6 0.25) ∈
        (compute_archetype_distances scores cat dw).2 := by
  intro cat
  induction cat with
  | nil => intro e he; cases he
  | cons a tl ih =>
    intro e he hsig
    have hfold : compute_archetype_distances scores (a :: tl) dw =
        (if a.2.signature.isEmpty then compute_archetype_distances scores tl dw
        else if (commonDims scores a.2.signature).isEmpty then
          ((a.1, (⊤ : WithTop ℝ)) :: (compute_archetype_distances scores tl dw).1,
            (a.1, (⊤ : WithTop ℝ)) :: (compute_archetype_distances scores tl dw).2)
        else
          ((a.1, ((euclidDist scores a.2.signature : ℝ) : WithTop ℝ)) ::
              (compute_archetype_distances scores tl dw).1,
            (a.1, _compute_archetype_energy scores a.2.signature dw 0.6 0.25) ::
              (compute_archetype_distances scores tl dw).2)) := rfl
    rcases List.mem_cons.mp he with rfl | hmem
    · rw [hfold, if_neg (by rw [hsig]; exact Bool.false_ne_true)]
      by_cases hc : (commonDims scores e.2.signature).isEmpty
      · rw [if_pos hc, energy_top_of_no_common scores e.2.signature dw 0.6 0.25 hc]
        exact List.mem_cons_self _ _
      · rw [if_neg hc]
        exact List.mem_cons_self _ _
    · have htl := ih e hmem hsig
      rw [hfold]
      by_cases ha : a.2.signature.isEmpty
      · rw [if_pos ha]; exact htl
      · rw [if_neg ha]
        by_cases hc : (commonDims scores a.2.signature).isEmpty
        · rw [if_pos hc]; exact List.mem_cons_of_mem _ htl
        · rw [if_neg hc]; exact List.mem_cons_of_mem _ htl

theorem diag_energy_elems (scores : ScoreMap) (dw : Weights) :
    ∀ (cat : Catalog) (q : String × WithTop ℝ),
      q ∈ (compute_archetype_distances scores cat dw).2 →
      ∃ e ∈ cat, e.2.signature.isEmpty = false ∧
        q = (e.1, _compute_archetype_energy scores e.2.signature dw 0.6 0.25) := by
  intro cat
  induction cat with
  | nil => intro q hq; cases hq
  | cons a tl ih =>
    intro q hq
    by_cases ha : a.2.signature.isEmpty
    · have : q ∈ (compute_archetype_distances scores tl dw).2 := by
        have hfold : (compute_archetype_distances scores (a :: tl) dw).2 =
            (compute_archetype_distances scores tl dw).2 := by
          show (if a.2.signature.isEmpty then _ else _ :
            List (String × WithTop ℝ) × List (String × WithTop ℝ)).2 = _
          rw [if_pos ha]
          rfl
        rwa [hfold] at hq
      obtain ⟨e, he, h1, h2⟩ := ih q this
      exact ⟨e, List.mem_cons_of_mem a he, h1, h2⟩
    · by_cases hc : (commonDims scores a.2.signature).isEmpty
      · have hfold : (compute_archetype_distances scores (a :: tl) dw).2 =
            (a.1, (⊤ : WithTop ℝ)) :: (compute_archetype_distances scores tl dw).2 := by
          show (if a.2.signature.isEmpty then _ else _ :
            List (String × WithTop ℝ) × List (String × WithTop ℝ)).2 = _
          rw [if_neg ha, if_pos hc]
          rfl
        rw [hfold] at hq
        rcases List.mem_cons.mp hq with rfl | hmem
        · exact ⟨a, List.mem_cons_self a tl, Bool.eq_false_iff.mpr ha,
            by rw [energy_top_of_no_common scores a.2.signature dw 0.6 0.25 hc]⟩
        · obtain ⟨e, he, h1, h2⟩ := ih _ hmem
          exact ⟨e, List.mem_cons_of_mem a he, h1, h2⟩
      · have hfold : (compute_archetype_distances scores (a :: tl) dw).2 =
            (a.1, _compute_archetype_energy scores a.2.signature dw 0.6 0.25) ::
              (compute_archetype_distances scores tl dw).2 := by
          show (if a.2.signature.isEmpty then _ else _ :
            List (String × WithTop ℝ) × List (String × WithTop ℝ)).2 = _
          rw [if_neg ha, if_neg hc]
          rfl
        rw [hfold] at hq
        rcases List.mem_cons.mp hq with rfl | hmem
        · exact ⟨a, List.mem_cons_self a tl, Bool.eq_false_iff.mpr ha, rfl⟩
        · obtain ⟨e, he, h1, h2⟩ := ih _ hmem
          exact ⟨e, List.mem_cons_of_mem a he, h1, h2⟩

/-- C6 counterexample: for scores `{thinking: 0}` and the one-archetype
catalog `{"A": {signature: {thinking: 100}}}`, the Diagnostics Reporter's
`euclidean` distance for "A" is 100 while the mismatch the Matcher computes
internally for "A" (its energy at λ = 0.6, ρ = 0.25) is 1.85 — the two do
not numerically agree; it is the reporter's `energy` entry, not its
distance entry, that matches the Matcher. -/
theorem diagnostics_distance_counterexample :
    (compute_archetype_distances [(Dim.thinking, (0 : ℝ))]
        [("A", ⟨[(Dim.thinking, (100 : ℝ))]⟩)] []).1 =
      [("A", ((100 : ℝ) : WithTop ℝ))] ∧
    _compute_archetype_energy [(Dim.thinking, (0 : ℝ))]
        [(Dim.thinking, (100 : ℝ))] [] 0.6 0.25 = ((1.85 : ℝ) : WithTop ℝ) ∧
    ((100 : ℝ) : WithTop ℝ) ≠ ((1.85 : ℝ) : WithTop ℝ) := by
  have hsqrt : euclidDist [(Dim.thinking, (0 : ℝ))] [(Dim.thinking, (100 : ℝ))]
      = 100 := by
    rw [euclidDist]
    norm_num [commonDims, getSc, List.lookup]
    rw [show (10000 : ℝ) = 100 ^ 2 by norm_num]
    exact Real.sqrt_sq (by norm_num)
  refine ⟨?_, ?_, ?_⟩
  · have h1 : (([(Dim.thinking, (100 : ℝ))] : ScoreMap).isEmpty) = false := rfl
    have h2 : ((commonDims [(Dim.thinking, (0 : ℝ))]
        [(Dim.thinking, (100 : ℝ))]).isEmpty) = false := by decide
    simp only [compute_archetype_distances, List.foldr_cons, List.foldr_nil,
      h1, h2, Bool.false_eq_true, if_false, hsqrt]
  · rw [_compute_archetype_energy]
    norm_num [commonDims, getSc, absPow15, List.lookup]
  · intro h
    rw [WithTop.coe_eq_coe] at h
    norm_num at h

/-- C6 amended: the Diagnostics Reporter's `energy` values numerically
equal the mismatch values the Archetype Matcher computes internally — every
valid catalog entry appears in the reporter's energy dict with exactly the
energy the matcher evaluates for it (same formula, λ = 0.6, ρ = 0.25, same
weights), and the matcher's selected archetype minimizes that dict.  The
reporter's `euclidean` values are a separate diagnostic computed by a
different formula and need not agree. -/
theorem diagnostics_energy_matches_matcher :
    (∀ (scores : ScoreMap) (cat : Catalog) (dw : Weights)
      (e : String × ArchetypeData), e ∈ cat → e.2.signature.isEmpty = false →
      (e.1, _compute_archetype_energy scores e.2.signature dw 0.6 0.25) ∈
        (compute_archetype_distances scores cat dw).2) ∧
    (∀ (scores : ScoreMap) (cat : Catalog) (dw : Weights)
      (p : String × ArchetypeData),
      determine_archetype scores cat dw = some p →
      ∀ q ∈ (compute_archetype_distances scores cat dw).2,
        _compute_archetype_energy scores p.2.signature dw 0.6 0.25 ≤ q.2) := by
  refine ⟨fun scores cat dw e he hsig => mem_diag_energy scores dw cat e he hsig, ?_⟩
  intro scores cat dw p hp q hq
  have inv := determine_archetype_inv scores cat dw
  obtain ⟨_, hsig, hen, _⟩ := inv.2.1 p hp
  obtain ⟨e, he, hesig, rfl⟩ := diag_energy_elems scores dw cat q hq
  exact hen ▸ inv.2.2 e he hesig

theorem foldl_max_mem (xs : List (String × ℚ)) :
    ∀ x, xs.foldl (fun b p => if p.2 > b.2 then p else b) x ∈ x :: xs := by
  induction xs with
  | nil => intro x; simp
  | cons y ys ih =>
    intro x
    simp only [List.foldl_cons]
    by_cases h : y.2 > x.2
    · rw [if_pos h]
      exact List.mem_cons_of_mem x (ih y)
    · rw [if_neg h]
      rcases List.mem_cons.mp (ih x) with h' | h'
      · rw [h']
        exact List.mem_cons_self x _
      · exact List.mem_cons_of_mem x (List.mem_cons_of_mem y h')

theorem argmaxFirst_mem (l : List (String × ℚ)) (p : String × ℚ)
    (h : argmaxFirst l = some p) : p ∈ l := by
  cases l with
  | nil => cases h
  | cons x xs =>
    rw [argmaxFirst] at h
    exact (Option.some_inj.mp h) ▸ foldl_max_mem xs x

theorem argmaxFirst_isSome (l : List (String × ℚ)) (h : l ≠ []) :
    ∃ p, argmaxFirst l = some p := by
  cases l with
  | nil => exact absurd rfl h
  | cons x xs => exact ⟨_, rfl⟩

theorem mc_counts_empty_cat (g : ℕ → Dim → ℝ) (base : ScoreMap) (runs : ℕ)
    (noise : ℝ) (dw : Weights) : mc_counts g base [] runs noise dw = [] := by
  rw [mc_counts]
  generalize List.range runs = l
  induction l with
  | nil => rfl
  | cons t ts ih =>
    rw [List.foldl_cons]
    have hstep : (match determine_archetype (perturb (g t) noise base) [] dw with
        | some p => bump ([] : List (String × ℕ)) p.1
        | none => ([] : List (String × ℕ))) = [] := by
      cases determine_archetype (perturb (g t) noise base) [] dw <;> rfl
    rw [show (([] : Catalog).map (fun e => (e.1, 0))) = [] from rfl] at *
    rw [hstep]
    exact ih

/-- C2 counterexample: for the empty archetype catalog the Stability
Simulator does not return an empty/neutral report — `probs` is the empty
dict and `max(probs, key=probs.get)` raises `ValueError`, modelled here as
the `none` result (a returned report would be `some`). -/
theorem simulator_empty_catalog_counterexample :
    monte_carlo_probabilities (fun _ _ => 0) [(Dim.thinking, (50 : ℝ))] [] 0 0 []
      = none := by
  rfl

/-- C2 amended: the zero-total guard works — with a zero trial count and a
non-empty catalog the Simulator returns a neutral report (every percentage
0, stability 0) without dividing by zero — but with an empty catalog the
computation fails (`max()` over the empty `probs` dict raises `ValueError`,
modelled as `none`) for every trial count, instead of returning an empty
report. -/
theorem simulator_zero_guard :
    (∀ (g : ℕ → Dim → ℝ) (base : ScoreMap) (cat : Catalog) (noise : ℝ)
      (dw : Weights), cat ≠ [] →
      ∃ probs st sh,
        monte_carlo_probabilities g base cat 0 noise dw = some (probs, st, sh) ∧
        (∀ q ∈ probs, q.2 = 0) ∧ st = 0) ∧
    (∀ (g : ℕ → Dim → ℝ) (base : ScoreMap) (runs : ℕ) (noise : ℝ)
      (dw : Weights),
      monte_carlo_probabilities g base [] runs noise dw = none) := by
  constructor
  · intro g base cat noise dw hcat
    have hcounts : mc_counts g base cat 0 noise dw =
        cat.map (fun e => (e.1, 0)) := rfl
    have hzero : ∀ q ∈ mc_probs g base cat 0 noise dw, q.2 = 0 := by
      intro q hq
      rw [mc_probs, hcounts] at hq
      obtain ⟨p, hp, rfl⟩ := List.mem_map.mp hq
      obtain ⟨e, _, rfl⟩ := List.mem_map.mp hp
      norm_num
    have hne : mc_probs g base cat 0 noise dw ≠ [] := by
      rw [mc_probs, hcounts]
      simpa using hcat
    obtain ⟨prim, hprim⟩ := argmaxFirst_isSome _ hne
    refine ⟨mc_probs g base cat 0 noise dw, prim.2, _,
      by rw [monte_carlo_probabilities, hprim]; rfl, hzero, ?_⟩
    exact hzero prim (argmaxFirst_mem _ prim hprim)
  · intro g base runs noise dw
    rw [monte_carlo_probabilities, mc_probs, mc_counts_empty_cat]
    rfl

/-- C5 counterexample: the Stability Simulator's default noise standard
deviation is `0.10` (line 183 of src/idix_engine.py), not the claimed
`0.07`, so the claimed default pair `(N, σ) = (5000, 0.07)` is false. -/
theorem simulator_defaults_counterexample :
    runs_default = 5000 ∧ noise_default ≠ 7 / 100 := by
  refine ⟨rfl, fun h2 => ?_⟩
  rw [noise_default] at h2
  norm_num at h2

/-- C5 amended: the defaults are `runs = 5000` and `noise = 0.10` (10% of
the full score range), so each per-dimension Gaussian perturbation uses
standard deviation `noise * 100 = 10`, and the default call equals the
explicit call at those values. -/
theorem simulator_defaults :
    runs_default = 5000 ∧ noise_default = 0.10 ∧
    gauss_sigma noise_default = 10 ∧
    (∀ (g : ℕ → Dim → ℝ) (base : ScoreMap) (cat : Catalog),
      monte_carlo_probabilities_defaults g base cat =
        monte_carlo_probabilities g base cat 5000 0.10 []) := by
  refine ⟨rfl, rfl, ?_, fun g base cat => rfl⟩
  rw [gauss_sigma, noise_default]
  norm_num

theorem bump_keys (c : List (String × ℕ)) (n : String) :
    (bump c n).map Prod.fst = c.map Prod.fst := by
  rw [bump, List.map_map]
  refine List.map_congr_left (fun p _ => ?_)
  by_cases h : p.1 = n <;> simp [h]

theorem mc_counts_keys (g : ℕ → Dim → ℝ) (base : ScoreMap) (cat : Catalog)
    (runs : ℕ) (noise : ℝ) (dw : Weights) :
    (mc_counts g base cat runs noise dw).map Prod.fst = cat.map Prod.fst := by
  rw [mc_counts]
  generalize List.range runs = l
  have hinit : ((cat.map (fun e => (e.1, 0))).map Prod.fst : List String) =
      cat.map Prod.fst := by
    rw [List.map_map]
    rfl
  revert hinit
  generalize cat.map (fun e => (e.1, 0)) = c0
  induction l generalizing c0 with
  | nil => intro h; simpa using h
  | cons t ts ih =>
    intro h
    rw [List.foldl_cons]
    refine ih _ ?_
    cases hdet : determine_archetype (perturb (g t) noise base) cat dw with
    | none => simpa using h
    | some p => rw [bump_keys]; simpa using h

theorem mc_probs_keys (g : ℕ → Dim → ℝ) (base : ScoreMap) (cat : Catalog)
    (runs : ℕ) (noise : ℝ) (dw : Weights) :
    (mc_probs g base cat runs noise dw).map Prod.fst = cat.map Prod.fst := by
  rw [mc_probs, List.map_map]
  have : (Prod.fst ∘ fun p : String × ℕ =>
      (p.1, ((p.2 : ℚ) / (mc_total g base cat runs noise dw)) * 100)) =
      Prod.fst := rfl
  rw [this, mc_counts_keys]

theorem mc_probs_length (g : ℕ → Dim → ℝ) (base : ScoreMap) (cat : Catalog)
    (runs : ℕ) (noise : ℝ) (dw : Weights) :
    (mc_probs g base cat runs noise dw).length = cat.length := by
  have := congrArg List.length (mc_probs_keys g base cat runs noise dw)
  simpa using this

theorem monte_carlo_eq_some (g : ℕ → Dim → ℝ) (base : ScoreMap)
    (cat : Catalog) (runs : ℕ) (noise : ℝ) (dw : Weights)
    (probs : List (String × ℚ)) (st : ℚ) (sh : String × ℚ)
    (h : monte_carlo_probabilities g base cat runs noise dw =
      some (probs, st, sh)) :
    probs = mc_probs g base cat runs noise dw ∧
    (∃ prim, argmaxFirst probs = some prim ∧ st = prim.2) ∧
    sh = (if 1 < (sortDesc probs).length
      then (sortDesc probs).getD 1 ("None", 0) else ("None", 0)) := by
  rw [monte_carlo_probabilities] at h
  obtain ⟨prim, hprim, heq⟩ := Option.map_eq_some'.mp h
  rw [Prod.mk.injEq, Prod.mk.injEq] at heq
  obtain ⟨h1, h2, h3⟩ := heq
  subst h1
  exact ⟨rfl, ⟨prim, hprim, h2.symm⟩, h3.symm⟩

theorem sortDesc_pairwise (l : List (String × ℚ)) :
    List.Pairwise (fun a b : String × ℚ => b.2 ≤ a.2) (sortDesc l) := by
  have h := @List.sorted_mergeSort (String × ℚ)
    (fun a b : String × ℚ => decide (b.2 ≤ a.2))
    (fun a b c hab hbc => by
      simp only [decide_eq_true_eq] at *
      exact le_trans hbc hab)
    (fun a b => by rcases le_total a.2 b.2 with h | h <;> simp [h])
    l
  refine h.imp (fun hab => ?_)
  simpa using hab

/-- C4 counterexample: with a two-archetype catalog and zero trials, no
archetype receives any vote (both tallies are 0 — fewer than two received
votes), yet the shadow result is `("B", 0)`, the second entry of the
descending sort, not the sentinel `("None", 0)`: the code tests
`len(sorted_probs) > 1` (catalog size), not how many archetypes received
votes. -/
theorem shadow_sentinel_counterexample :
    mc_counts (fun _ _ => 0) [(Dim.thinking, (50 : ℝ))]
        [("A", ⟨[(Dim.thinking, (50 : ℝ))]⟩), ("B", ⟨[(Dim.thinking, (50 : ℝ))]⟩)]
        0 0 [] = [("A", 0), ("B", 0)] ∧
    monte_carlo_probabilities (fun _ _ => 0) [(Dim.thinking, (50 : ℝ))]
        [("A", ⟨[(Dim.thinking, (50 : ℝ))]⟩), ("B", ⟨[(Dim.thinking, (50 : ℝ))]⟩)]
        0 0 [] = some ([("A", 0), ("B", 0)], 0, ("B", 0)) ∧
    (("B", (0 : ℚ)) : String × ℚ) ≠ (("None", 0) : String × ℚ) := by
  have hcounts : mc_counts (fun _ _ => 0) [(Dim.thinking, (50 : ℝ))]
      [("A", ⟨[(Dim.thinking, (50 : ℝ))]⟩), ("B", ⟨[(Dim.thinking, (50 : ℝ))]⟩)]
      0 0 [] = [("A", 0), ("B", 0)] := rfl
  have hprobs : mc_probs (fun _ _ => 0) [(Dim.thinking, (50 : ℝ))]
      [("A", ⟨[(Dim.thinking, (50 : ℝ))]⟩), ("B", ⟨[(Dim.thinking, (50 : ℝ))]⟩)]
      0 0 [] = [("A", 0), ("B", 0)] := by
    rw [mc_probs, mc_total, hcounts]
    norm_num
  refine ⟨hcounts, ?_, by decide⟩
  rw [monte_carlo_probabilities, hprobs]
  have hsort : sortDesc [(("A" : String), (0 : ℚ)), ("B", 0)] =
      [("A", 0), ("B", 0)] := by
    simp [sortDesc, List.mergeSort]
  simp only [hsort, argmaxFirst]
  norm_num

/-- C4 amended: the shadow result is the sentinel pair `("None", 0)` exactly
when the catalog has fewer than two archetypes — the code tests the length
of the sorted probability dict (the catalog size), not how many archetypes
received votes.  Otherwise the shadow is the second entry of the stable
descending sort of the percentages (possibly an archetype with zero votes):
at most its first entry has a strictly higher percentage, and every later
entry has one no higher. -/
theorem shadow_second_highest :
    (∀ (g : ℕ → Dim → ℝ) (base : ScoreMap) (cat : Catalog) (runs : ℕ)
      (noise : ℝ) (dw : Weights) (probs : List (String × ℚ)) (st : ℚ)
      (sh : String × ℚ),
      monte_carlo_probabilities g base cat runs noise dw = some (probs, st, sh) →
      cat.length ≤ 1 → sh = ("None", 0)) ∧
    (∀ (g : ℕ → Dim → ℝ) (base : ScoreMap) (cat : Catalog) (runs : ℕ)
      (noise : ℝ) (dw : Weights) (probs : List (String × ℚ)) (st : ℚ)
      (sh : String × ℚ),
      monte_carlo_probabilities g base cat runs noise dw = some (probs, st, sh) →
      2 ≤ cat.length →
      sh ∈ probs ∧ ∃ top rest, sortDesc probs = top :: sh :: rest ∧
        sh.2 ≤ top.2 ∧ ∀ q ∈ rest, q.2 ≤ sh.2) := by
  constructor
  · intro g base cat runs noise dw probs st sh h hlen
    obtain ⟨hprobs, _, hsh⟩ := monte_carlo_eq_some g base cat runs noise dw
      probs st sh h
    have hplen : (sortDesc probs).length ≤ 1 := by
      rw [sortDesc, List.length_mergeSort, hprobs,
        mc_probs_length g base cat runs noise dw]
      exact hlen
    rw [hsh, if_neg (by omega)]
  · intro g base cat runs noise dw probs st sh h hlen
    obtain ⟨hprobs, _, hsh⟩ := monte_carlo_eq_some g base cat runs noise dw
      probs st sh h
    have hplen : 2 ≤ (sortDesc probs).length := by
      rw [sortDesc, List.length_mergeSort, hprobs,
        mc_probs_length g base cat runs noise dw]
      exact hlen
    obtain ⟨top, snd, rest, hs⟩ :
        ∃ top snd rest, sortDesc probs = top :: snd :: rest := by
      cases hs : sortDesc probs with
      | nil =>
        rw [hs] at hplen
        simp at hplen
      | cons a l =>
        cases hl : l with
        | nil =>
          rw [hs, hl] at hplen
          simp at hplen
        | cons b r => exact ⟨a, b, r, rfl⟩
    have hshsnd : sh = snd := by
      rw [hsh, hs, if_pos (by simp)]
      rfl
    have hpw := sortDesc_pairwise probs
    rw [hs] at hpw
    have h1 := (List.pairwise_cons.mp hpw).1
    have hpw2 := (List.pairwise_cons.mp hpw).2
    have h2 := (List.pairwise_cons.mp hpw2).1
    have hmem : sh ∈ sortDesc probs := by
      rw [hs, hshsnd]
      exact List.mem_cons_of_mem top (List.mem_cons_self snd rest)
    refine ⟨?_, top, rest, by rw [hs, hshsnd], ?_, ?_⟩
    · exact (List.Perm.mem_iff (List.mergeSort_perm probs _)).mp hmem
    · rw [hshsnd]
      exact h1 snd (List.mem_cons_self snd rest)
    · intro q hq
      rw [hshsnd]
      exact h2 q hq

theorem perturb_keys (gt : Dim → ℝ) (noise : ℝ) (base : ScoreMap) :
    (perturb gt noise base).map Prod.fst = base.map Prod.fst := by
  rw [perturb, List.map_map]
  rfl

theorem commonDims_perturb (gt : Dim → ℝ) (noise : ℝ) (base sig : ScoreMap) :
    commonDims (perturb gt noise base) sig = commonDims base sig := by
  rw [commonDims, commonDims, perturb_keys]

theorem sig_ne_empty_of_common (scores sig : ScoreMap)
    (h : (commonDims scores sig).isEmpty = false) : sig.isEmpty = false := by
  cases sig with
  | nil =>
    exfalso
    rw [show commonDims scores [] = [] from by
      simp [commonDims, List.lookup]] at h
    cases h
  | cons a l => rfl

theorem energy_ne_top (scores sig : ScoreMap) (dw : Weights) (lc rw : ℝ)
    (h : (commonDims scores sig).isEmpty = false) :
    _compute_archetype_energy scores sig dw lc rw ≠ ⊤ := by
  rw [_compute_archetype_energy, if_neg (by rw [h]; exact Bool.false_ne_true)]
  exact WithTop.coe_ne_top

theorem determine_archetype_isSome (scores : ScoreMap) (cat : Catalog)
    (dw : Weights)
    (h : ∃ e ∈ cat, (commonDims scores e.2.signature).isEmpty = false) :
    ∃ p, determine_archetype scores cat dw = some p := by
  obtain ⟨e, he, hce⟩ := h
  have inv := determine_archetype_inv scores cat dw
  cases hres : (cat.foldl (matchStep scores dw) (none, ⊤)).1 with
  | some p => exact ⟨p, hres⟩
  | none =>
    exfalso
    have htop := inv.1 hres
    have hle := inv.2.2 e he (sig_ne_empty_of_common _ _ hce)
    rw [htop] at hle
    exact energy_ne_top scores e.2.signature dw 0.6 0.25 hce (top_le_iff.mp hle)

theorem determine_archetype_mem (scores : ScoreMap) (cat : Catalog)
    (dw : Weights) (p : String × ArchetypeData)
    (h : determine_archetype scores cat dw = some p) : p ∈ cat :=
  ((determine_archetype_inv scores cat dw).2.1 p h).1

theorem bump_not_mem (c : List (String × ℕ)) (n : String)
    (h : n ∉ c.map Prod.fst) : bump c n = c := by
  rw [bump]
  conv_rhs => rw [← List.map_id c]
  refine List.map_congr_left (fun p hp => ?_)
  have hpn : p.1 ≠ n := by
    intro hpn
    exact h (hpn ▸ List.mem_map_of_mem Prod.fst hp)
  rw [if_neg hpn]
  rfl

theorem bump_sum (c : List (String × ℕ)) (n : String)
    (hnd : (c.map Prod.fst).Nodup) (hmem : n ∈ c.map Prod.fst) :
    ((bump c n).map Prod.snd).sum = (c.map Prod.snd).sum + 1 := by
  induction c with
  | nil => simp at hmem
  | cons p tl ih =>
    rw [List.map_cons] at hnd hmem
    have hnd' := (List.nodup_cons.mp hnd).2
    have hnot := (List.nodup_cons.mp hnd).1
    by_cases h : p.1 = n
    · have hbump : bump (p :: tl) n = (p.1, p.2 + 1) :: tl := by
        rw [bump, List.map_cons, if_pos h]
        have : bump tl n = tl := bump_not_mem tl n (h ▸ hnot)
        rw [bump] at this
        rw [this]
      rw [hbump]
      simp only [List.map_cons, List.sum_cons]
      omega
    · have hmem' : n ∈ tl.map Prod.fst := by
        rcases List.mem_cons.mp hmem with h' | h'
        · exact absurd h'.symm h
        · exact h'
      have hbump : bump (p :: tl) n = p :: bump tl n := by
        rw [bump, List.map_cons, if_neg h]
        rfl
      rw [hbump]
      simp only [List.map_cons, List.sum_cons]
      rw [ih hnd' hmem']
      omega

theorem mc_counts_sum (g : ℕ → Dim → ℝ) (base : ScoreMap) (cat : Catalog)
    (runs : ℕ) (noise : ℝ) (dw : Weights)
    (hnd : (cat.map Prod.fst).Nodup)
    (hvalid : ∃ e ∈ cat, (commonDims base e.2.signature).isEmpty = false) :
    ((mc_counts g base cat runs noise dw).map Prod.snd).sum = runs := by
  rw [mc_counts]
  have hgen : ∀ (l : List ℕ) (c0 : List (String × ℕ)),
      c0.map Prod.fst = cat.map Prod.fst →
      ((l.foldl (fun counts t =>
        match determine_archetype (perturb (g t) noise base) cat dw with
        | some p => bump counts p.1
        | none => counts) c0).map Prod.snd).sum =
        (c0.map Prod.snd).sum + l.length := by
    intro l
    induction l with
    | nil => intro c0 _; simp
    | cons t ts ih =>
      intro c0 hkeys
      rw [List.foldl_cons]
      have hvalid' : ∃ e ∈ cat,
          (commonDims (perturb (g t) noise base) e.2.signature).isEmpty = false := by
        obtain ⟨e, he, hce⟩ := hvalid
        exact ⟨e, he, by rw [commonDims_perturb]; exact hce⟩
      obtain ⟨p, hp⟩ := determine_archetype_isSome
        (perturb (g t) noise base) cat dw hvalid'
      have hpmem : p.1 ∈ c0.map Prod.fst := by
        rw [hkeys]
        exact List.mem_map_of_mem Prod.fst
          (determine_archetype_mem _ cat dw p hp)
      have hstep : (match determine_archetype (perturb (g t) noise base) cat dw
          with
          | some p => bump c0 p.1
          | none => c0) = bump c0 p.1 := by rw [hp]
      rw [hstep, ih (bump c0 p.1) (by rw [bump_keys, hkeys]),
        bump_sum c0 p.1 (hkeys ▸ hnd) hpmem]
      simp only [List.length_cons]
      omega
  have hinit : (((cat.map (fun e => (e.1, 0))).map Prod.snd).sum : ℕ) = 0 := by
    refine List.sum_eq_zero (fun x hx => ?_)
    obtain ⟨p, hp, rfl⟩ := List.mem_map.mp hx
    obtain ⟨e, _, rfl⟩ := List.mem_map.mp hp
    rfl
  have hkeys0 : ((cat.map (fun e => (e.1, 0))).map Prod.fst : List String) =
      cat.map Prod.fst := by
    rw [List.map_map]
    rfl
  rw [hgen (List.range runs) _ hkeys0, hinit, List.length_range]
  omega

theorem map_snd_probs_sum (c : List (String × ℕ)) (T : ℕ) :
    ((c.map (fun p => (p.1, ((p.2 : ℚ) / T) * 100))).map Prod.snd).sum =
      (((c.map Prod.snd).sum : ℕ) : ℚ) / T * 100 := by
  induction c with
  | nil => simp
  | cons p tl ih =>
    simp only [List.map_cons, List.sum_cons, ih]
    push_cast
    ring

/-- C7 counterexample: a non-empty catalog whose single archetype has an
empty signature gets no votes in any trial — `determine_archetype` returns
the sentinel every time — so with `N = 1 > 0` the reported percentages sum
to 0, not 100. -/
theorem probabilities_sum_counterexample :
    monte_carlo_probabilities (fun _ _ => 0) [(Dim.thinking, (50 : ℝ))]
        [("A", ⟨[]⟩)] 1 0 [] = some ([("A", 0)], 0, ("None", 0)) ∧
    ([("A", (0 : ℚ))].map Prod.snd).sum = 0 ∧ (0 : ℚ) ≠ 100 := by
  have hcounts : mc_counts (fun _ _ => 0) [(Dim.thinking, (50 : ℝ))]
      [("A", ⟨[]⟩)] 1 0 [] = [("A", 0)] := rfl
  have hprobs : mc_probs (fun _ _ => 0) [(Dim.thinking, (50 : ℝ))]
      [("A", ⟨[]⟩)] 1 0 [] = [("A", 0)] := by
    rw [mc_probs, mc_total, hcounts]
    norm_num
  refine ⟨?_, by simp, by norm_num⟩
  rw [monte_carlo_probabilities, hprobs]
  have hsort : sortDesc [(("A" : String), (0 : ℚ))] = [("A", 0)] := by
    simp [sortDesc, List.mergeSort]
  simp only [hsort, argmaxFirst]
  norm_num

/-- C7 amended: for every trial count `N > 0` and every catalog (with
distinct archetype names, as a Python dict has) containing at least one
archetype whose signature shares a dimension with the base scores, every
trial classifies to some archetype, so the reported per-archetype
percentages sum to exactly 100.  (A non-empty catalog alone does not
suffice: if no archetype can ever be matched, the percentages sum to 0.) -/
theorem probabilities_sum_100 (g : ℕ → Dim → ℝ) (base : ScoreMap)
    (cat : Catalog) (runs : ℕ) (noise : ℝ) (dw : Weights)
    (hruns : 0 < runs) (hnd : (cat.map Prod.fst).Nodup)
    (hvalid : ∃ e ∈ cat, (commonDims base e.2.signature).isEmpty = false) :
    ∃ probs st sh,
      monte_carlo_probabilities g base cat runs noise dw =
        some (probs, st, sh) ∧ (probs.map Prod.snd).sum = 100 := by
  have hsum := mc_counts_sum g base cat runs noise dw hnd hvalid
  have htot : mc_total g base cat runs noise dw = runs := by
    rw [mc_total, hsum, if_neg (by omega)]
  have hrq : (runs : ℚ) ≠ 0 := Nat.cast_ne_zero.mpr (by omega)
  have hprobs_sum : ((mc_probs g base cat runs noise dw).map Prod.snd).sum
      = 100 := by
    rw [mc_probs, map_snd_probs_sum, hsum, htot, div_self hrq]
    norm_num
  have hcat : cat ≠ [] := by
    rintro rfl
    obtain ⟨e, he, _⟩ := hvalid
    cases he
  have hne : mc_probs g base cat runs noise dw ≠ [] := by
    intro h0
    have hlen := mc_probs_length g base cat runs noise dw
    rw [h0] at hlen
    exact hcat (List.length_eq_zero.mp hlen.symm)
  obtain ⟨prim, hprim⟩ := argmaxFirst_isSome _ hne
  refine ⟨mc_probs g base cat runs noise dw, prim.2,
    (if 1 < (sortDesc (mc_probs g base cat runs noise dw)).length
      then (sortDesc (mc_probs g base cat runs noise dw)).getD 1 ("None", 0)
      else ("None", 0)), ?_, hprobs_sum⟩
  rw [monte_carlo_probabilities, hprim]
  rfl

/-- C7 amended witness: one archetype overlapping the base scores, one
trial — the reported percentages sum to 100. -/
theorem probabilities_sum_100_witness :
    ∃ probs st sh,
      monte_carlo_probabilities (fun _ _ => 0) [(Dim.thinking, (50 : ℝ))]
        [("A", ⟨[(Dim.thinking, (60 : ℝ))]⟩)] 1 0 [] =
        some (probs, st, sh) ∧ (probs.map Prod.snd).sum = 100 :=
  probabilities_sum_100 (fun _ _ => 0) [(Dim.thinking, (50 : ℝ))]
    [("A", ⟨[(Dim.thinking, (60 : ℝ))]⟩)] 1 0 []
    (by decide) (by simp) (by decide)

end ITYPE
